import Mathlib

/-!
Verification of the s4pi-reforged DBPF package codec.

This file gives a shallow embedding of the package container codec
(`src/package/header.rs`, `src/package/index.rs`, `src/package/mod.rs`),
the manifest resource codec (`src/package/resource.rs`) and the merge
driver (`src/main.rs`), and proves the specified properties about them.

Bytes are modelled as natural numbers (each `< 256` on well-formed
streams); byte strings are `List Nat`; fallible operations return
`Option` or `Except String`, mirroring `Option`/`anyhow::Result`
in the source.
-/

/-- Little-endian value of a byte list (first byte is least significant),
as computed by `u32::from_le_bytes` / `u64::from_le_bytes` on a slice. -/
def leVal : List Nat → Nat
  | [] => 0
  | b :: bs => b + 256 * leVal bs

/-- Little-endian encoding of `n` into exactly `k` bytes, as produced by
`to_le_bytes` (higher bytes are truncated, mirroring an `as uN` cast). -/
def toLE (k n : Nat) : List Nat :=
  match k with
  | 0 => []
  | k + 1 => n % 256 :: toLE k (n / 256)

/-- Reads `k` raw bytes from the front of a stream (mirrors `read_exact`
into a `k`-byte buffer: fails when fewer than `k` bytes remain). -/
def readList (k : Nat) (l : List Nat) : Option (List Nat × List Nat) :=
  if k ≤ l.length then some (l.take k, l.drop k) else none

/-- Reads `k` bytes and decodes them little-endian (mirrors `read_exact`
followed by `from_le_bytes`). -/
def readLE (k : Nat) (l : List Nat) : Option (Nat × List Nat) :=
  if k ≤ l.length then some (leVal (l.take k), l.drop k) else none

/-- Well-formedness of a byte stream: every element is an actual byte. -/
def Bytes (l : List Nat) : Prop := ∀ b ∈ l, b < 256

theorem toLE_length (k n : Nat) : (toLE k n).length = k := by
  induction k generalizing n with
  | zero => rfl
  | succ k ih => simp [toLE, ih]

theorem leVal_toLE {k n : Nat} (h : n < 256 ^ k) : leVal (toLE k n) = n := by
  induction k generalizing n with
  | zero => simp [pow_zero] at h; simp [toLE, leVal, h]
  | succ k ih =>
    have hdiv : n / 256 < 256 ^ k := by
      rw [Nat.div_lt_iff_lt_mul (by norm_num)]
      calc n < 256 ^ (k + 1) := h
        _ = 256 ^ k * 256 := by ring
    simp [toLE, leVal, ih hdiv]
    omega

theorem toLE_leVal {l : List Nat} (h : Bytes l) : toLE l.length (leVal l) = l := by
  induction l with
  | nil => rfl
  | cons b bs ih =>
    have hb : b < 256 := h b (List.mem_cons_self _ _)
    have hbs : Bytes bs := fun x hx => h x (List.mem_cons_of_mem _ hx)
    simp [toLE, leVal, List.length_cons]
    constructor
    · omega
    · have : (b + 256 * leVal bs) / 256 = leVal bs := by omega
      rw [this]; exact ih hbs

theorem leVal_lt {l : List Nat} (h : Bytes l) : leVal l < 256 ^ l.length := by
  induction l with
  | nil => simp [leVal]
  | cons b bs ih =>
    have hb : b < 256 := h b (List.mem_cons_self _ _)
    have hbs := ih (fun x hx => h x (List.mem_cons_of_mem _ hx))
    simp only [leVal, List.length_cons, pow_succ]
    calc b + 256 * leVal bs < 256 + 256 * leVal bs := by omega
      _ = 256 * (leVal bs + 1) := by ring
      _ ≤ 256 * 256 ^ bs.length := by
          have : leVal bs + 1 ≤ 256 ^ bs.length := hbs
          exact Nat.mul_le_mul_left _ this
      _ = 256 ^ bs.length * 256 := by ring

theorem readLE_some {k : Nat} {l : List Nat} {v : Nat} {r : List Nat}
    (h : readLE k l = some (v, r)) :
    v = leVal (l.take k) ∧ r = l.drop k ∧ k ≤ l.length := by
  unfold readLE at h
  split at h
  · simp at h; exact ⟨h.1.symm, h.2.symm, by assumption⟩
  · simp at h

theorem readLE_roundtrip {k : Nat} {l : List Nat} {v : Nat} {r : List Nat}
    (hB : Bytes l) (h : readLE k l = some (v, r)) :
    toLE k v ++ r = l ∧ v < 256 ^ k := by
  obtain ⟨hv, hr, hk⟩ := readLE_some h
  have hBt : Bytes (l.take k) := fun x hx => hB x (List.mem_of_mem_take hx)
  have hlen : (l.take k).length = k := by simp [List.length_take]; omega
  have h1 := toLE_leVal hBt
  have h2 := leVal_lt hBt
  rw [hlen] at h1 h2
  constructor
  · rw [hv, hr, h1, List.take_append_drop]
  · rw [hv]; exact h2

theorem bytes_append {l₁ l₂ : List Nat} (h₁ : Bytes l₁) (h₂ : Bytes l₂) :
    Bytes (l₁ ++ l₂) := by
  intro b hb
  rcases List.mem_append.mp hb with h | h
  · exact h₁ b h
  · exact h₂ b h

theorem bytes_toLE (k n : Nat) : Bytes (toLE k n) := by
  induction k generalizing n with
  | zero => intro b hb; simp [toLE] at hb
  | succ k ih =>
    intro b hb
    simp [toLE] at hb
    rcases hb with h | h
    · omega
    · exact ih _ b h

/-!
Header codec (`src/package/header.rs`).

`PackageHeader` is a 96-byte little-endian record read by `binrw`;
`is_valid` accepts exactly magic `"DBPF"` (bytes 0x44 0x42 0x50 0x46)
with major version 2.
-/

structure PackageHeader where
  magic : List Nat
  major : Nat
  minor : Nat
  unused1 : Nat
  unused2 : Nat
  unused3 : Nat
  created : Nat
  modified : Nat
  index_version : Nat
  index_count : Nat
  index_size_total_deprecated : Nat
  unused4 : Nat
  index_size : Nat
  unused5 : List Nat
  index_position : Nat
  unused6 : List Nat
deriving Repr, DecidableEq

/-- Mirrors `PackageHeader::is_valid`: `&self.magic == b"DBPF" && self.major == 2`. -/
def PackageHeader.is_valid (h : PackageHeader) : Bool :=
  h.magic == [0x44, 0x42, 0x50, 0x46] && h.major == 2

/-- Field of the header record: the 4-byte little-endian value at byte
offset `o` of stream `l`. -/
def hdrU32 (l : List Nat) (o : Nat) : Nat := leVal ((l.drop o).take 4)

/-- Mirrors the `binrw` little-endian read of the 96-byte header record.
All fields have fixed widths, so the sequential read is equivalent to
requiring 96 bytes and slicing at the fixed offsets: magic at 0 (4 raw
bytes), then u32 fields at 4, 8, 12, 16, 20, 24, 28, 32, 36, 40, 44, 48,
the three `unused5` words at 52/56/60, the u64 `index_position` at 64,
and the six `unused6` words at 72..92. A short stream is a read error
(`none`). -/
def parseHeader (l : List Nat) : Option (PackageHeader × List Nat) :=
  if 96 ≤ l.length then
    some ({ magic := l.take 4,
            major := hdrU32 l 4,
            minor := hdrU32 l 8,
            unused1 := hdrU32 l 12,
            unused2 := hdrU32 l 16,
            unused3 := hdrU32 l 20,
            created := hdrU32 l 24,
            modified := hdrU32 l 28,
            index_version := hdrU32 l 32,
            index_count := hdrU32 l 36,
            index_size_total_deprecated := hdrU32 l 40,
            unused4 := hdrU32 l 44,
            index_size := hdrU32 l 48,
            unused5 := [hdrU32 l 52, hdrU32 l 56, hdrU32 l 60],
            index_position := leVal ((l.drop 64).take 8),
            unused6 := [hdrU32 l 72, hdrU32 l 76, hdrU32 l 80,
                        hdrU32 l 84, hdrU32 l 88, hdrU32 l 92] }, l.drop 96)
  else none

/-!
Index model (`src/package/index.rs`).
-/

/-- Resource key: 32-bit kind, 32-bit group, 64-bit instance
(`TGI` in `src/package/index.rs`; the `instance` field is named `inst`
here because `instance` is reserved in Lean). -/
structure TGI where
  res_type : Nat
  res_group : Nat
  inst : Nat
deriving Repr, DecidableEq

structure IndexEntry where
  tgi : TGI
  offset : Nat
  filesize : Nat
  memsize : Nat
  compression : Nat
  committed : Nat
deriving Repr, DecidableEq

/-- Mirrors `IndexEntry::is_compressed`: `self.compression != 0`. -/
def IndexEntry.is_compressed (e : IndexEntry) : Bool :=
  e.compression != 0

/-- Decodes one index entry from its key constants and the fixed 20-byte
tail `buf_rest`, exactly as the loop body of `Package::open` does,
including the implicit-compression inference on the `stored_size` high
bit. -/
def decodeEntryRest (res_type res_group instance_hi : Nat) (buf_rest : List Nat) :
    IndexEntry :=
  let instance_lo := leVal (buf_rest.take 4)
  let inst := (instance_hi <<< 32) ||| instance_lo
  let offset := leVal ((buf_rest.drop 4).take 4)
  let filesize_raw := leVal ((buf_rest.drop 8).take 4)
  let filesize := filesize_raw &&& 0x7FFFFFFF
  let memsize := leVal ((buf_rest.drop 12).take 4)
  let compression0 := leVal ((buf_rest.drop 16).take 2)
  let committed := leVal ((buf_rest.drop 18).take 2)
  let compression :=
    if filesize_raw &&& 0x80000000 ≠ 0 ∧ compression0 = 0 ∧ filesize ≠ memsize
    then 0x5A42 else compression0
  { tgi := { res_type := res_type, res_group := res_group, inst := inst },
    offset := offset, filesize := filesize, memsize := memsize,
    compression := compression, committed := committed }

/-!
Archive accessor: `Package::open` (`src/package/mod.rs`).
-/

structure Package where
  header : PackageHeader
  entries : List IndexEntry
deriving Repr, DecidableEq

/-- Key field of one entry: taken from the constant (when the index_type
bit was set) or read per entry, as in the loop body of `Package::open`. -/
def readKeyField : Option Nat → List Nat → Option (Nat × List Nat)
  | some v, r => some (v, r)
  | none, r => readLE 4 r

/-- Constant key field of the index block, read up front when `flag` (a
bit of `index_type`) is set. -/
def readConstField (flag : Bool) (r : List Nat) : Option (Option Nat × List Nat) :=
  if flag then
    match readLE 4 r with
    | none => none
    | some (v, r2) => some (some v, r2)
  else some (none, r)

/-- Entry loop of `Package::open`: reads `n` index entries, each as the
non-constant key fields followed by the fixed 20-byte tail. -/
def parseEntries (ct cg chi : Option Nat) : Nat → List Nat → Option (List IndexEntry × List Nat)
  | 0, r => some ([], r)
  | n + 1, r =>
    match readKeyField ct r with
    | none => none
    | some (res_type, r) =>
      match readKeyField cg r with
      | none => none
      | some (res_group, r) =>
        match readKeyField chi r with
        | none => none
        | some (instance_hi, r) =>
          match readList 20 r with
          | none => none
          | some (buf_rest, r) =>
            match parseEntries ct cg chi n r with
            | none => none
            | some (es, r2) =>
              some (decodeEntryRest res_type res_group instance_hi buf_rest :: es, r2)

/-- Mirrors `Package::open` over the whole file contents: read and
validate the header, seek to `index_position`, read the 4-byte
`index_type`, reject when `index_count * 20` exceeds the file length,
read the optional constant key fields, then the entry loop. -/
def openPackage (file : List Nat) : Except String Package :=
  match parseHeader file with
  | none => Except.error "Failed to read package header"
  | some (header, _) =>
    if !header.is_valid then
      Except.error "Invalid DBPF header or unsupported version"
    else
      match readLE 4 (file.drop header.index_position) with
      | none => Except.error "failed to fill whole buffer"
      | some (index_type, r) =>
        if header.index_count * 20 > file.length then
          Except.error "Invalid package header: index_count too large for file size"
        else
          match readConstField (index_type &&& 0x01 != 0) r with
          | none => Except.error "failed to fill whole buffer"
          | some (constant_type, r) =>
            match readConstField (index_type &&& 0x02 != 0) r with
            | none => Except.error "failed to fill whole buffer"
            | some (constant_group, r) =>
              match readConstField (index_type &&& 0x04 != 0) r with
              | none => Except.error "failed to fill whole buffer"
              | some (constant_instance_hi, r) =>
                match parseEntries constant_type constant_group constant_instance_hi
                    header.index_count r with
                | none => Except.error "failed to fill whole buffer"
                | some (entries, _) => Except.ok { header := header, entries := entries }

/-- Sample header used for concrete evaluation. -/
def hdrA : PackageHeader :=
  { magic := [0x44, 0x42, 0x50, 0x46], major := 2, minor := 1,
    unused1 := 0, unused2 := 0, unused3 := 0, created := 0, modified := 0,
    index_version := 3, index_count := 5, index_size_total_deprecated := 0,
    unused4 := 0, index_size := 0, unused5 := [0, 0, 0],
    index_position := 96, unused6 := [0, 0, 0, 0, 0, 0] }

/-- Header agreeing with `hdrA` on magic and major but differing in every
other field. -/
def hdrB : PackageHeader :=
  { magic := [0x44, 0x42, 0x50, 0x46], major := 2, minor := 99,
    unused1 := 7, unused2 := 8, unused3 := 9, created := 10, modified := 11,
    index_version := 0, index_count := 12, index_size_total_deprecated := 13,
    unused4 := 14, index_size := 15, unused5 := [1, 2, 3],
    index_position := 1234, unused6 := [4, 5, 6, 7, 8, 9] }

/-- C4: `is_valid` is true iff the magic bytes equal "DBPF" and the major
version equals 2, and no other header field affects the result. -/
theorem header_is_valid_characterization (h : PackageHeader) :
    (h.is_valid = true ↔ (h.magic = [0x44, 0x42, 0x50, 0x46] ∧ h.major = 2)) ∧
    (∀ h2 : PackageHeader, h2.magic = h.magic → h2.major = h.major →
      h2.is_valid = h.is_valid) := by
  constructor
  · simp [PackageHeader.is_valid]
  · intro h2 hm hj
    simp [PackageHeader.is_valid, hm, hj]

/-- Witness for C4 at concrete headers: `hdrB` differs from `hdrA` in all
non-validated fields yet validates identically. -/
theorem header_is_valid_characterization_witness :
    (hdrA.is_valid = true ↔ (hdrA.magic = [0x44, 0x42, 0x50, 0x46] ∧ hdrA.major = 2)) ∧
    hdrB.is_valid = hdrA.is_valid :=
  ⟨(header_is_valid_characterization hdrA).1,
   (header_is_valid_characterization hdrA).2 hdrB (by decide) (by decide)⟩

/-- C3: `is_compressed` is true iff the compression field is nonzero, and
an entry parsed with the `stored_size` high bit set, a zero compression
tag and a masked stored size different from the memory size comes out of
`Package::open`'s entry decoding with the inferred compression tag
`0x5A42` (hence `is_compressed`). -/
theorem is_compressed_iff_and_inference :
    (∀ e : IndexEntry, e.is_compressed = true ↔ e.compression ≠ 0) ∧
    (∀ res_type res_group instance_hi : Nat, ∀ buf_rest : List Nat,
      leVal ((buf_rest.drop 8).take 4) &&& 0x80000000 ≠ 0 →
      leVal ((buf_rest.drop 16).take 2) = 0 →
      leVal ((buf_rest.drop 8).take 4) &&& 0x7FFFFFFF ≠ leVal ((buf_rest.drop 12).take 4) →
      (decodeEntryRest res_type res_group instance_hi buf_rest).compression = 0x5A42 ∧
      (decodeEntryRest res_type res_group instance_hi buf_rest).is_compressed = true) := by
  constructor
  · intro e
    simp [IndexEntry.is_compressed]
  · intro rt rg ihi buf h1 h2 h3
    simp only [decodeEntryRest]
    rw [if_pos ⟨h1, h2, h3⟩]
    constructor
    · rfl
    · simp [IndexEntry.is_compressed]

/-- Sample 20-byte entry tail: stored size raw `0x80000001` (high bit
set, masked value 1), memory size 5, compression tag 0, committed 1. -/
def bufC3 : List Nat :=
  [0, 0, 0, 0, 0, 0, 0, 0, 1, 0, 0, 0x80, 5, 0, 0, 0, 0, 0, 1, 0]

/-- Witness for C3 at a concrete entry tail. -/
theorem is_compressed_iff_and_inference_witness :
    ((decodeEntryRest 1 2 3 bufC3).is_compressed = true ↔
      (decodeEntryRest 1 2 3 bufC3).compression ≠ 0) ∧
    (decodeEntryRest 1 2 3 bufC3).compression = 0x5A42 ∧
    (decodeEntryRest 1 2 3 bufC3).is_compressed = true :=
  ⟨(is_compressed_iff_and_inference).1 (decodeEntryRest 1 2 3 bufC3),
   (is_compressed_iff_and_inference).2 1 2 3 bufC3 (by decide) (by decide) (by decide)⟩

/-- File used for the C5 witness: a valid 96-byte header claiming
`index_count = 1000` with `index_position = 96`, followed by a 4-byte
index type, 100 bytes in total. -/
def c5File : List Nat :=
  [0x44, 0x42, 0x50, 0x46] ++ toLE 4 2 ++ toLE 4 1 ++ List.replicate 20 0 ++
  toLE 4 3 ++ toLE 4 1000 ++ List.replicate 24 0 ++ toLE 8 96 ++
  List.replicate 24 0 ++ List.replicate 4 0

/-- Header parsed from `c5File`. -/
def c5Header : PackageHeader :=
  { magic := [0x44, 0x42, 0x50, 0x46], major := 2, minor := 1,
    unused1 := 0, unused2 := 0, unused3 := 0, created := 0, modified := 0,
    index_version := 3, index_count := 1000, index_size_total_deprecated := 0,
    unused4 := 0, index_size := 0, unused5 := [0, 0, 0],
    index_position := 96, unused6 := [0, 0, 0, 0, 0, 0] }

/-- C5: when the validated header announces `index_count * 20` larger
than the file, `Package::open` returns an error; the defensive bound
fires before the entry loop (and before the `index_count`-sized entry
vector is created), so whenever the 4-byte `index_type` read at
`index_position` succeeds the result is exactly the defensive-bound
error. -/
theorem open_rejects_oversized_index (file : List Nat) (h : PackageHeader) (r : List Nat)
    (hp : parseHeader file = some (h, r)) (hv : h.is_valid = true)
    (hc : h.index_count * 20 > file.length) :
    (∃ msg, openPackage file = Except.error msg) ∧
    (h.index_position + 4 ≤ file.length →
      openPackage file = Except.error
        "Invalid package header: index_count too large for file size") := by
  constructor
  · unfold openPackage
    rw [hp]
    simp only [hv, Bool.not_true, Bool.false_eq_true, if_false]
    rcases hEq : readLE 4 (file.drop h.index_position) with _ | ⟨it, r2⟩
    · exact ⟨_, rfl⟩
    · simp only [if_pos hc]
      exact ⟨_, rfl⟩
  · intro hpos
    unfold openPackage
    rw [hp]
    simp only [hv, Bool.not_true, Bool.false_eq_true, if_false]
    rcases hEq : readLE 4 (file.drop h.index_position) with _ | ⟨it, r2⟩
    · exfalso
      unfold readLE at hEq
      split at hEq
      · simp at hEq
      · rename_i hlt
        rw [List.length_drop] at hlt
        omega
    · simp only [if_pos hc]

/-- Witness for C5 at `c5File`: 1000 entries × 20 bytes exceed the
100-byte file, so open fails with the defensive-bound error. -/
theorem open_rejects_oversized_index_witness :
    openPackage c5File = Except.error
      "Invalid package header: index_count too large for file size" :=
  (open_rejects_oversized_index c5File c5Header [0, 0, 0, 0]
    (by decide) (by decide) (by decide)).2 (by decide)

/-!
RefPack decompressor (`decompress_refpack`, `copy_plain`, `copy_ref` in
`src/package/mod.rs`).

The decode loop `while w_pos < memsize && r_pos < data.len()` is modelled
by `refpackLoop` over the remaining input list; one iteration of the loop
body (opcode dispatch on `byte0`) is `refpackStep`.
-/

/-- Mirrors `copy_plain`: bounds check, then copy `count` literal bytes
from the front of the remaining input into `dest` at `w`; returns the
remaining input, the updated buffer and the new write position. -/
def copyPlain (src dest : List Nat) (w count : Nat) :
    Except String (List Nat × List Nat × Nat) :=
  if count > src.length ∨ w + count > dest.length then
    Except.error "RefPack: plain copy out of bounds"
  else
    Except.ok (src.drop count,
      dest.take w ++ src.take count ++ dest.drop (w + count), w + count)

theorem copyPlain_ok {src dest : List Nat} {w count : Nat} {src2 dest2 : List Nat} {w2 : Nat}
    (h : copyPlain src dest w count = Except.ok (src2, dest2, w2)) :
    src2 = src.drop count ∧
    dest2 = dest.take w ++ src.take count ++ dest.drop (w + count) ∧
    w2 = w + count ∧ count ≤ src.length ∧ w + count ≤ dest.length := by
  unfold copyPlain at h
  split at h
  · simp at h
  · rename_i hc
    push_neg at hc
    simp at h
    refine ⟨h.1.symm, ?_, h.2.2.symm, hc.1, hc.2⟩
    simp [← h.2.1, List.append_assoc]

theorem copyPlain_ok_length {src dest : List Nat} {w count : Nat} {src2 dest2 : List Nat}
    {w2 : Nat} (h : copyPlain src dest w count = Except.ok (src2, dest2, w2)) :
    dest2.length = dest.length := by
  obtain ⟨-, hd, -, hc, hw⟩ := copyPlain_ok h
  subst hd
  simp [List.length_take, List.length_drop]
  omega

/-- Body of `copy_ref`'s loop, byte at a time so that overlapping copies
replicate: `dest[w] = dest[w - offset]; w += 1`, `count` times. -/
def copyRefRun (dest : List Nat) (w offset : Nat) : Nat → List Nat × Nat
  | 0 => (dest, w)
  | n + 1 => copyRefRun (dest.set w (dest.getD (w - offset) 0)) (w + 1) offset n

theorem copyRefRun_spec (offset : Nat) :
    ∀ (n : Nat) (dest : List Nat) (w : Nat),
      (copyRefRun dest w offset n).1.length = dest.length ∧
      (copyRefRun dest w offset n).2 = w + n := by
  intro n
  induction n with
  | zero => intro dest w; simp [copyRefRun]
  | succ n ih =>
    intro dest w
    have h := ih (dest.set w (dest.getD (w - offset) 0)) (w + 1)
    refine ⟨?_, ?_⟩
    · simp only [copyRefRun]
      rw [h.1, List.length_set]
    · simp only [copyRefRun]
      rw [h.2]
      omega

/-- Mirrors `copy_ref`: bounds check (`offset > dest_pos` or write past
the end is an error), then the self-referential byte copy. -/
def copyRef (dest : List Nat) (w count offset : Nat) : Except String (List Nat × Nat) :=
  if offset > w ∨ w + count > dest.length then
    Except.error "RefPack: reference copy out of bounds"
  else Except.ok (copyRefRun dest w offset count)

theorem copyRef_ok {dest : List Nat} {w count offset : Nat} {dest2 : List Nat} {w2 : Nat}
    (h : copyRef dest w count offset = Except.ok (dest2, w2)) :
    dest2.length = dest.length ∧ w2 = w + count ∧ offset ≤ w ∧ w + count ≤ dest.length := by
  unfold copyRef at h
  split at h
  · simp at h
  · rename_i hc
    push_neg at hc
    simp at h
    have hs := copyRefRun_spec offset count dest w
    rw [h] at hs
    simp at hs
    exact ⟨hs.1, hs.2, hc.1, hc.2⟩

/-- Outcome of one iteration of the decode loop: `halt` models the
`break` statements (missing trailer bytes), `fail` an early return with
an error, `cont` falling through to the next iteration. -/
inductive StepResult where
  | halt : StepResult
  | fail : String → StepResult
  | cont : List Nat → Nat → List Nat → StepResult
deriving Repr, DecidableEq

/-- One iteration of the decode loop of `decompress_refpack`, after the
opcode byte `byte0` has been read; `rest` is the input after `byte0`. -/
def refpackStep (b0 : Nat) (rest : List Nat) (w : Nat) (dest : List Nat) : StepResult :=
  if b0 ≤ 0x7F then
    match rest with
    | [] => StepResult.halt
    | b1 :: rest2 =>
      let num_plain := b0 &&& 0x03
      let num_copy := ((b0 &&& 0x1C) >>> 2) + 3
      let copy_offset := ((b0 &&& 0x60) <<< 3) + b1 + 1
      match copyPlain rest2 dest w num_plain with
      | Except.error e => StepResult.fail e
      | Except.ok (rest3, dest1, w1) =>
        match copyRef dest1 w1 num_copy copy_offset with
        | Except.error e => StepResult.fail e
        | Except.ok (dest2, w2) => StepResult.cont rest3 w2 dest2
  else if b0 ≤ 0xBF then
    match rest with
    | b1 :: b2 :: rest3 =>
      let num_plain := (b1 &&& 0xC0) >>> 6
      let num_copy := (b0 &&& 0x3F) + 4
      let copy_offset := ((b1 &&& 0x3F) <<< 8) + b2 + 1
      match copyPlain rest3 dest w num_plain with
      | Except.error e => StepResult.fail e
      | Except.ok (rest4, dest1, w1) =>
        match copyRef dest1 w1 num_copy copy_offset with
        | Except.error e => StepResult.fail e
        | Except.ok (dest2, w2) => StepResult.cont rest4 w2 dest2
    | _ => StepResult.halt
  else if b0 ≤ 0xDF then
    match rest with
    | b1 :: b2 :: b3 :: rest4 =>
      let num_plain := b0 &&& 0x03
      let num_copy := ((b0 &&& 0x0C) <<< 6) + b3 + 5
      let copy_offset := ((b0 &&& 0x10) <<< 12) + (b1 <<< 8) + b2 + 1
      match copyPlain rest4 dest w num_plain with
      | Except.error e => StepResult.fail e
      | Except.ok (rest5, dest1, w1) =>
        match copyRef dest1 w1 num_copy copy_offset with
        | Except.error e => StepResult.fail e
        | Except.ok (dest2, w2) => StepResult.cont rest5 w2 dest2
    | _ => StepResult.halt
  else if b0 ≤ 0xFB then
    let num_plain := ((b0 &&& 0x1F) <<< 2) + 4
    match copyPlain rest dest w num_plain with
    | Except.error e => StepResult.fail e
    | Except.ok (rest2, dest1, w1) => StepResult.cont rest2 w1 dest1
  else
    let num_plain := b0 &&& 0x03
    match copyPlain rest dest w num_plain with
    | Except.error e => StepResult.fail e
    | Except.ok (rest2, dest1, w1) => StepResult.cont rest2 w1 dest1

theorem copyPlain_tail {src dest : List Nat} {w count : Nat} {src2 dest2 : List Nat}
    {w2 : Nat} (h : copyPlain src dest w count = Except.ok (src2, dest2, w2))
    (hz : dest.drop w = List.replicate (dest.length - w) 0) :
    dest2.drop w2 = List.replicate (dest2.length - w2) 0 := by
  obtain ⟨hs, hd, hw, hcnt, hbnd⟩ := copyPlain_ok h
  have hL := copyPlain_ok_length h
  subst hd hw
  have hlt : (dest.take w ++ src.take count).length = w + count := by
    simp [List.length_take, List.length_append]
    omega
  have hCC : List.drop (w + count)
      (List.take w dest ++ List.take count src ++ List.drop (w + count) dest) =
      List.drop (w + count) dest := by
    have hdl := List.drop_left (List.take w dest ++ List.take count src)
      (List.drop (w + count) dest)
    rw [hlt] at hdl
    rw [List.append_assoc] at hdl ⊢
    exact hdl
  rw [hCC, hL]
  rw [← List.drop_drop, hz, List.drop_replicate]
  congr 1
  omega

theorem copyRefRun_tail (offset : Nat) :
    ∀ (n : Nat) (dest : List Nat) (w : Nat),
      (copyRefRun dest w offset n).1.drop (w + n) = dest.drop (w + n) := by
  intro n
  induction n with
  | zero => intro dest w; simp [copyRefRun]
  | succ n ih =>
    intro dest w
    have h := ih (dest.set w (dest.getD (w - offset) 0)) (w + 1)
    simp only [copyRefRun]
    have he : w + 1 + n = w + (n + 1) := by omega
    rw [he] at h
    rw [h, List.drop_set_of_lt]
    omega

theorem copyRef_tail {dest : List Nat} {w count offset : Nat} {dest2 : List Nat} {w2 : Nat}
    (h : copyRef dest w count offset = Except.ok (dest2, w2))
    (hz : dest.drop w = List.replicate (dest.length - w) 0) :
    dest2.drop w2 = List.replicate (dest2.length - w2) 0 := by
  obtain ⟨hl, hw, ho, hb⟩ := copyRef_ok h
  unfold copyRef at h
  split at h
  · simp at h
  · simp at h
    have ht := copyRefRun_tail offset count dest w
    rw [h] at ht
    simp at ht
    rw [hl, hw, ht]
    rw [← List.drop_drop, hz, List.drop_replicate]
    congr 1
    omega
theorem refpackStep_cont {b0 : Nat} {rest : List Nat} {w : Nat} {dest : List Nat}
    {rem2 : List Nat} {w2 : Nat} {dest2 : List Nat}
    (h : refpackStep b0 rest w dest = StepResult.cont rem2 w2 dest2) :
    rem2.length ≤ rest.length ∧ dest2.length = dest.length ∧ w ≤ w2 ∧ w2 ≤ dest.length ∧
    (dest.drop w = List.replicate (dest.length - w) 0 →
      dest2.drop w2 = List.replicate (dest2.length - w2) 0) := by
  unfold refpackStep at h
  iterate 3 (all_goals (try split at h))
  all_goals try (simp only [] at h)
  iterate 4 (all_goals (try split at h))
  all_goals try (exfalso; simp at h; done)
  all_goals simp only [StepResult.cont.injEq] at h
  all_goals obtain ⟨hA, hB, hC⟩ := h
  all_goals subst hA
  all_goals subst hB
  all_goals subst hC
  all_goals
    first
    | (rename_i xa r3 d1 w1 hcp xb dB wB hcr
       obtain ⟨hs, hd, hw, hcnt, hbnd⟩ := copyPlain_ok hcp
       have hL := copyPlain_ok_length hcp
       obtain ⟨hrl, hrw, hro, hrb⟩ := copyRef_ok hcr
       subst hs
       refine ⟨?_, ?_, ?_, ?_, ?_⟩
       · simp only [List.length_drop, List.length_cons]
         omega
       · omega
       · omega
       · omega
       · intro hz
         exact copyRef_tail hcr (copyPlain_tail hcp hz))
    | (rename_i xa r2 d1 w1 hcp
       obtain ⟨hs, hd, hw, hcnt, hbnd⟩ := copyPlain_ok hcp
       have hL := copyPlain_ok_length hcp
       subst hs
       refine ⟨?_, ?_, ?_, ?_, ?_⟩
       · simp only [List.length_drop, List.length_cons]
         omega
       · omega
       · omega
       · omega
       · intro hz
         exact copyPlain_tail hcp hz)

/-- The decode loop of `decompress_refpack`. -/
def refpackLoop (rem : List Nat) (w : Nat) (dest : List Nat) : Except String (List Nat) :=
  if w < dest.length then
    match rem with
    | [] => Except.ok dest
    | b0 :: rest =>
      match hstep : refpackStep b0 rest w dest with
      | StepResult.halt => Except.ok dest
      | StepResult.fail e => Except.error e
      | StepResult.cont rem2 w2 dest2 => refpackLoop rem2 w2 dest2
  else Except.ok dest
termination_by rem.length
decreasing_by
  have := (refpackStep_cont hstep).1
  simp only [List.length_cons]
  omega

/-- Mirrors `decompress_refpack`: output buffer preallocated as
`memsize` zero bytes, 2-byte header (compression type flag and `0xFB`
signature), skipped 3- or 4-byte size field, then the opcode loop. -/
def decompressRefpack (data : List Nat) (memsize : Nat) : Except String (List Nat) :=
  match data with
  | c :: s :: rest =>
    if s ≠ 0xFB then Except.error "Invalid RefPack signature"
    else
      let size_bytes := if c &&& 0x80 ≠ 0 then 3 else 4
      if 2 + size_bytes > data.length then
        Except.error "RefPack data too short for size header"
      else refpackLoop (rest.drop size_bytes) 0 (List.replicate memsize 0)
  | _ => Except.error "RefPack data too short"

theorem refpackLoop_ok :
    ∀ (rem : List Nat) (w : Nat) (dest : List Nat) (out : List Nat),
      refpackLoop rem w dest = Except.ok out →
      out.length = dest.length ∧
      (dest.drop w = List.replicate (dest.length - w) 0 →
        ∃ w2, w2 ≤ out.length ∧ out.drop w2 = List.replicate (out.length - w2) 0) := by
  intro rem w dest
  induction rem, w, dest using refpackLoop.induct with
  | case1 w dest hw =>
    intro out h
    rw [refpackLoop] at h
    simp [hw] at h
    subst h
    refine ⟨rfl, fun hz => ⟨w, by omega, hz⟩⟩
  | case2 w dest hw b0 rest hstep =>
    intro out h
    rw [refpackLoop, if_pos hw] at h
    split at h <;> rename_i heq <;> rw [hstep] at heq <;> try (exfalso; simp at heq; done)
    simp at h
    subst h
    refine ⟨rfl, fun hz => ⟨w, by omega, hz⟩⟩
  | case3 w dest hw b0 rest e hstep =>
    intro out h
    rw [refpackLoop, if_pos hw] at h
    split at h <;> rename_i heq <;> rw [hstep] at heq <;> try (exfalso; simp at heq; done)
    simp at h
  | case4 w dest hw b0 rest rem2 w2 dest2 hstep ih =>
    intro out h
    rw [refpackLoop, if_pos hw] at h
    split at h <;> rename_i heq <;> rw [hstep] at heq <;> try (exfalso; simp at heq; done)
    simp at heq
    obtain ⟨he1, he2, he3⟩ := heq
    subst he1
    subst he2
    subst he3
    obtain ⟨hlen2, hd2, hww, hwb, htail⟩ := refpackStep_cont hstep
    obtain ⟨ihl, iht⟩ := ih out h
    refine ⟨by omega, fun hz => iht (htail hz)⟩
  | case5 rem w dest hw =>
    intro out h
    rw [refpackLoop.eq_def, if_neg hw] at h
    simp at h
    subst h
    refine ⟨rfl, fun hz => ⟨dest.length, le_refl _, by simp⟩⟩

theorem refpackStep_halt (b0 : Nat) (rest : List Nat) (w : Nat) (dest : List Nat)
    (hcond : (b0 ≤ 0x7F ∧ rest = []) ∨
      (0x80 ≤ b0 ∧ b0 ≤ 0xBF ∧ rest.length < 2) ∨
      (0xC0 ≤ b0 ∧ b0 ≤ 0xDF ∧ rest.length < 3)) :
    refpackStep b0 rest w dest = StepResult.halt := by
  rcases hcond with ⟨h1, h2⟩ | ⟨h1, h2, h3⟩ | ⟨h1, h2, h3⟩
  · subst h2
    unfold refpackStep
    rw [if_pos h1]
  · unfold refpackStep
    rw [if_neg (by omega), if_pos (by omega)]
    match rest with
    | [] => rfl
    | [b1] => rfl
    | b1 :: b2 :: r => exact absurd h3 (by simp)
  · unfold refpackStep
    rw [if_neg (by omega), if_neg (by omega), if_pos (by omega)]
    match rest with
    | [] => rfl
    | [b1] => rfl
    | [b1, b2] => rfl
    | b1 :: b2 :: b3 :: r => exact absurd h3 (by simp)

theorem refpackLoop_nil (w : Nat) (dest : List Nat) :
    refpackLoop [] w dest = Except.ok dest := by
  rw [refpackLoop]
  split <;> rfl

theorem refpackLoop_halt (b0 : Nat) (rest : List Nat) (w : Nat) (dest : List Nat)
    (hcond : (b0 ≤ 0x7F ∧ rest = []) ∨
      (0x80 ≤ b0 ∧ b0 ≤ 0xBF ∧ rest.length < 2) ∨
      (0xC0 ≤ b0 ∧ b0 ≤ 0xDF ∧ rest.length < 3)) :
    refpackLoop (b0 :: rest) w dest = Except.ok dest := by
  by_cases hw : w < dest.length
  · rw [refpackLoop, if_pos hw]
    have hh := refpackStep_halt b0 rest w dest hcond
    split <;> rename_i heq <;> rw [hh] at heq
    all_goals simp_all
  · rw [refpackLoop, if_neg hw]

theorem decompressRefpack_ok {data : List Nat} {memsize : Nat} {out : List Nat}
    (h : decompressRefpack data memsize = Except.ok out) :
    out.length = memsize ∧
    ∃ w, w ≤ memsize ∧ out.drop w = List.replicate (memsize - w) 0 := by
  match data with
  | [] => simp [decompressRefpack] at h
  | [c] => simp [decompressRefpack] at h
  | c :: s :: rest =>
    unfold decompressRefpack at h
    simp only at h
    split at h
    · simp at h
    · split at h <;> split at h
      all_goals try (exfalso; simp at h; done)
      all_goals
        obtain ⟨hlen, htail⟩ := refpackLoop_ok _ _ _ _ h
      all_goals rw [List.length_replicate] at hlen
      all_goals refine ⟨hlen, ?_⟩
      all_goals
        obtain ⟨w2, hw2, hdrop⟩ := htail (by simp)
      all_goals exact ⟨w2, by omega, by rw [hdrop, hlen]⟩

/-- Instrumented variant of `refpackLoop`: the same recursion (the same
`refpackStep` dispatch and the same exits), additionally reporting the
final value of the write position `w_pos` alongside the buffer, so that
"the unwritten tail of the output" can be named in statements.
`refpackLoopW_fst` proves that it agrees with `refpackLoop`. -/
def refpackLoopW (rem : List Nat) (w : Nat) (dest : List Nat) :
    Except String (List Nat × Nat) :=
  if w < dest.length then
    match rem with
    | [] => Except.ok (dest, w)
    | b0 :: rest =>
      match hstep : refpackStep b0 rest w dest with
      | StepResult.halt => Except.ok (dest, w)
      | StepResult.fail e => Except.error e
      | StepResult.cont rem2 w2 dest2 => refpackLoopW rem2 w2 dest2
  else Except.ok (dest, w)
termination_by rem.length
decreasing_by
  have := (refpackStep_cont hstep).1
  simp only [List.length_cons]
  omega

/-- Instrumented variant of `decompressRefpack` built on
`refpackLoopW`: identical header handling, with the result additionally
carrying the final write position. -/
def decompressRefpackW (data : List Nat) (memsize : Nat) :
    Except String (List Nat × Nat) :=
  match data with
  | c :: s :: rest =>
    if s ≠ 0xFB then Except.error "Invalid RefPack signature"
    else
      let size_bytes := if c &&& 0x80 ≠ 0 then 3 else 4
      if 2 + size_bytes > data.length then
        Except.error "RefPack data too short for size header"
      else refpackLoopW (rest.drop size_bytes) 0 (List.replicate memsize 0)
  | _ => Except.error "RefPack data too short"

theorem refpackLoop_cons_eq (b0 : Nat) (rest : List Nat) (w : Nat) (dest : List Nat)
    (hw : w < dest.length) :
    refpackLoop (b0 :: rest) w dest =
      match refpackStep b0 rest w dest with
      | StepResult.halt => Except.ok dest
      | StepResult.fail e => Except.error e
      | StepResult.cont rem2 w2 dest2 => refpackLoop rem2 w2 dest2 := by
  rw [refpackLoop, if_pos hw]
  split <;> rename_i heq <;> rw [heq]

theorem refpackLoopW_cons_eq (b0 : Nat) (rest : List Nat) (w : Nat) (dest : List Nat)
    (hw : w < dest.length) :
    refpackLoopW (b0 :: rest) w dest =
      match refpackStep b0 rest w dest with
      | StepResult.halt => Except.ok (dest, w)
      | StepResult.fail e => Except.error e
      | StepResult.cont rem2 w2 dest2 => refpackLoopW rem2 w2 dest2 := by
  rw [refpackLoopW, if_pos hw]
  split <;> rename_i heq <;> rw [heq]

theorem refpackLoopW_fst :
    ∀ (rem : List Nat) (w : Nat) (dest : List Nat),
      refpackLoop rem w dest = (refpackLoopW rem w dest).map Prod.fst := by
  intro rem w dest
  induction rem, w, dest using refpackLoopW.induct with
  | case1 w dest hw =>
    rw [refpackLoop, refpackLoopW]
    simp [hw, Except.map]
  | case2 w dest hw b0 rest hstep =>
    rw [refpackLoop_cons_eq b0 rest w dest hw, refpackLoopW_cons_eq b0 rest w dest hw, hstep]
    rfl
  | case3 w dest hw b0 rest e hstep =>
    rw [refpackLoop_cons_eq b0 rest w dest hw, refpackLoopW_cons_eq b0 rest w dest hw, hstep]
    rfl
  | case4 w dest hw b0 rest rem2 w2 dest2 hstep ih =>
    rw [refpackLoop_cons_eq b0 rest w dest hw, refpackLoopW_cons_eq b0 rest w dest hw, hstep]
    exact ih
  | case5 rem w dest hw =>
    rw [refpackLoop.eq_def, refpackLoopW.eq_def]
    simp [hw, Except.map]

theorem refpackLoopW_nil (w : Nat) (dest : List Nat) :
    refpackLoopW [] w dest = Except.ok (dest, w) := by
  rw [refpackLoopW]
  split <;> rfl

theorem refpackLoopW_halt (b0 : Nat) (rest : List Nat) (w : Nat) (dest : List Nat)
    (hcond : (b0 ≤ 0x7F ∧ rest = []) ∨
      (0x80 ≤ b0 ∧ b0 ≤ 0xBF ∧ rest.length < 2) ∨
      (0xC0 ≤ b0 ∧ b0 ≤ 0xDF ∧ rest.length < 3)) :
    refpackLoopW (b0 :: rest) w dest = Except.ok (dest, w) := by
  by_cases hw : w < dest.length
  · rw [refpackLoopW_cons_eq b0 rest w dest hw, refpackStep_halt b0 rest w dest hcond]
  · rw [refpackLoopW, if_neg hw]

theorem refpackLoopW_ok :
    ∀ (rem : List Nat) (w : Nat) (dest : List Nat) (out : List Nat) (wf : Nat),
      refpackLoopW rem w dest = Except.ok (out, wf) → w ≤ dest.length →
      out.length = dest.length ∧ w ≤ wf ∧ wf ≤ dest.length ∧
      (dest.drop w = List.replicate (dest.length - w) 0 →
        out.drop wf = List.replicate (out.length - wf) 0) := by
  intro rem w dest
  induction rem, w, dest using refpackLoopW.induct with
  | case1 w dest hw =>
    intro out wf h hwle
    rw [refpackLoopW] at h
    simp [hw] at h
    obtain ⟨h1, h2⟩ := h
    subst h1
    subst h2
    exact ⟨rfl, le_refl _, le_of_lt hw, fun hz => hz⟩
  | case2 w dest hw b0 rest hstep =>
    intro out wf h hwle
    rw [refpackLoopW_cons_eq b0 rest w dest hw, hstep] at h
    simp at h
    obtain ⟨h1, h2⟩ := h
    subst h1
    subst h2
    exact ⟨rfl, le_refl _, le_of_lt hw, fun hz => hz⟩
  | case3 w dest hw b0 rest e hstep =>
    intro out wf h hwle
    rw [refpackLoopW_cons_eq b0 rest w dest hw, hstep] at h
    simp at h
  | case4 w dest hw b0 rest rem2 w2 dest2 hstep ih =>
    intro out wf h hwle
    rw [refpackLoopW_cons_eq b0 rest w dest hw, hstep] at h
    obtain ⟨hlen2, hd2, hww, hwb, htail⟩ := refpackStep_cont hstep
    obtain ⟨ihl, ihw, ihb, iht⟩ := ih out wf h (by omega)
    refine ⟨by omega, by omega, by omega, fun hz => iht (htail hz)⟩
  | case5 rem w dest hw =>
    intro out wf h hwle
    rw [refpackLoopW.eq_def, if_neg hw] at h
    simp at h
    obtain ⟨h1, h2⟩ := h
    subst h1
    subst h2
    have hwe : w = dest.length := by omega
    refine ⟨rfl, le_refl _, by omega, fun hz => ?_⟩
    rw [hwe] at hz ⊢
    exact hz

theorem decompressRefpackW_fst (data : List Nat) (memsize : Nat) :
    decompressRefpack data memsize = (decompressRefpackW data memsize).map Prod.fst := by
  rcases data with _ | ⟨c, _ | ⟨s, rest⟩⟩
  · rfl
  · rfl
  · unfold decompressRefpack decompressRefpackW
    simp only []
    split
    · rfl
    · split <;> split
      all_goals first
      | rfl
      | exact refpackLoopW_fst _ _ _

theorem decompressRefpackW_ok {data : List Nat} {memsize : Nat} {out : List Nat} {wf : Nat}
    (h : decompressRefpackW data memsize = Except.ok (out, wf)) :
    out.length = memsize ∧ wf ≤ memsize ∧
    out.drop wf = List.replicate (memsize - wf) 0 := by
  match data with
  | [] => simp [decompressRefpackW] at h
  | [c] => simp [decompressRefpackW] at h
  | c :: s :: rest =>
    unfold decompressRefpackW at h
    simp only at h
    split at h
    · simp at h
    · split at h <;> split at h
      all_goals try (exfalso; simp at h; done)
      all_goals
        obtain ⟨hlen, hwle, hwb, htail⟩ := refpackLoopW_ok _ _ _ _ _ h (by simp)
      all_goals rw [List.length_replicate] at hlen hwb
      all_goals exact ⟨hlen, hwb, by rw [htail (by simp), hlen]⟩

theorem refpackStep_fcff {b0 : Nat} (rest : List Nat) (w : Nat) (dest : List Nat)
    (h1 : 0xFC ≤ b0) (hnp : b0 &&& 0x03 ≤ rest.length)
    (hwnp : w + (b0 &&& 0x03) ≤ dest.length) :
    refpackStep b0 rest w dest =
      StepResult.cont (rest.drop (b0 &&& 0x03)) (w + (b0 &&& 0x03))
        (dest.take w ++ rest.take (b0 &&& 0x03) ++ dest.drop (w + (b0 &&& 0x03))) := by
  have hcp : copyPlain rest dest w (b0 &&& 0x03) =
      Except.ok (rest.drop (b0 &&& 0x03),
        dest.take w ++ rest.take (b0 &&& 0x03) ++ dest.drop (w + (b0 &&& 0x03)),
        w + (b0 &&& 0x03)) := by
    unfold copyPlain
    rw [if_neg (by omega)]
  unfold refpackStep
  rw [if_neg (by omega), if_neg (by omega), if_neg (by omega), if_neg (by omega)]
  simp only []
  rw [hcp]

/-- C1 (amended): an opcode byte in 0xFC-0xFF appends
`num_plain = byte0 & 0x03` literal bytes copied verbatim from the input
and performs no back-reference copy, but it does not terminate decoding:
the loop continues with the remaining input while output space remains.
(The claim as stated is refuted by `refpack_terminal_counterexample`.) -/
theorem refpack_fcff_literal_continue (b0 : Nat) (rest : List Nat) (w : Nat) (dest : List Nat)
    (h1 : 0xFC ≤ b0) (h2 : b0 ≤ 0xFF) (hw : w < dest.length)
    (hnp : b0 &&& 0x03 ≤ rest.length) (hwnp : w + (b0 &&& 0x03) ≤ dest.length) :
    refpackLoop (b0 :: rest) w dest =
      refpackLoop (rest.drop (b0 &&& 0x03)) (w + (b0 &&& 0x03))
        (dest.take w ++ rest.take (b0 &&& 0x03) ++ dest.drop (w + (b0 &&& 0x03))) := by
  have hs := refpackStep_fcff rest w dest h1 hnp hwnp
  rw [refpackLoop, if_pos hw]
  split <;> rename_i heq <;> rw [hs] at heq
  · simp at heq
  · simp at heq
  · simp only [StepResult.cont.injEq] at heq
    obtain ⟨e1, e2, e3⟩ := heq
    rw [← e1, ← e2, ← e3]

/-- Witness for the amended C1 at a concrete opcode 0xFE (2 literal
bytes) mid-buffer. -/
theorem refpack_fcff_literal_continue_witness :
    refpackLoop [0xFE, 7, 8, 9] 1 [5, 0, 0, 0] = refpackLoop [9] 3 [5, 7, 8, 0] := by
  have h := refpack_fcff_literal_continue 0xFE [7, 8, 9] 1 [5, 0, 0, 0]
    (by omega) (by omega) (by decide) (by decide) (by decide)
  simpa using h

unseal refpackLoop in
/-- C1 counterexample: after the alleged terminal opcode 0xFC (which
appends 0 literal bytes), the decoder goes on to decode the following
0xE0 opcode and copies 4 more literal bytes, so the output is
[1, 2, 3, 4] rather than the all-zero buffer that stopping would leave. -/
theorem refpack_terminal_counterexample :
    decompressRefpack [0x10, 0xFB, 0, 0, 0, 0, 0xFC, 0xE0, 1, 2, 3, 4] 4 =
      Except.ok [1, 2, 3, 4] ∧ ([1, 2, 3, 4] : List Nat) ≠ [0, 0, 0, 0] :=
  ⟨rfl, by decide⟩

/-- C10: a successful `decompress_refpack` returns exactly `memsize`
bytes, and the part of the buffer beyond the final write position - the
unwritten tail - is exactly the zeros of its initialisation: the
instrumented decoder `decompressRefpackW` (the same computation, shown
to agree with `decompressRefpack` in the second conjunct) reports the
final write position `wf`, and `out.drop wf` is all zeros. When the
opcode stream is exhausted, or an opcode in 0x00-0x7F / 0x80-0xBF /
0xC0-0xDF lacks its 1 / 2 / 3 trailer bytes, the loop stops without
error, returning the buffer as is with the write position unchanged. -/
theorem refpack_output_shape :
    (∀ (data : List Nat) (memsize : Nat) (out : List Nat),
      decompressRefpack data memsize = Except.ok out →
      out.length = memsize ∧
      ∃ wf, wf ≤ memsize ∧
        decompressRefpackW data memsize = Except.ok (out, wf) ∧
        out.drop wf = List.replicate (memsize - wf) 0) ∧
    (∀ (data : List Nat) (memsize : Nat),
      decompressRefpack data memsize = (decompressRefpackW data memsize).map Prod.fst) ∧
    (∀ (w : Nat) (dest : List Nat),
      refpackLoop [] w dest = Except.ok dest ∧
      refpackLoopW [] w dest = Except.ok (dest, w)) ∧
    (∀ (b0 : Nat) (rest : List Nat) (w : Nat) (dest : List Nat),
      ((b0 ≤ 0x7F ∧ rest = []) ∨
       (0x80 ≤ b0 ∧ b0 ≤ 0xBF ∧ rest.length < 2) ∨
       (0xC0 ≤ b0 ∧ b0 ≤ 0xDF ∧ rest.length < 3)) →
      refpackLoop (b0 :: rest) w dest = Except.ok dest ∧
      refpackLoopW (b0 :: rest) w dest = Except.ok (dest, w)) := by
  refine ⟨?_, decompressRefpackW_fst,
    fun w dest => ⟨refpackLoop_nil w dest, refpackLoopW_nil w dest⟩,
    fun b0 rest w dest hc =>
      ⟨refpackLoop_halt b0 rest w dest hc, refpackLoopW_halt b0 rest w dest hc⟩⟩
  intro data memsize out h
  have hagree := decompressRefpackW_fst data memsize
  rw [h] at hagree
  rcases hW : decompressRefpackW data memsize with e | ⟨out2, wf⟩ <;> rw [hW] at hagree
  · simp [Except.map] at hagree
  · simp [Except.map] at hagree
    subst hagree
    obtain ⟨hlen, hwb, htail⟩ := decompressRefpackW_ok hW
    exact ⟨hlen, wf, hwb, rfl, htail⟩

unseal refpackLoop refpackLoopW in
/-- Witness for C10: a concrete successful decode (a 0xE0 literal run
writing 4 bytes into a 6-byte buffer stops at write position 4, leaving
the zero tail [0, 0]), the loop agreement at that input, an exhausted
stream, and a truncated 0x85 opcode missing one of its two trailer
bytes. -/
theorem refpack_output_shape_witness :
    (([1, 2, 3, 4, 0, 0] : List Nat).length = 6 ∧
      ∃ wf, wf ≤ 6 ∧
        decompressRefpackW [0x10, 0xFB, 0, 0, 0, 0, 0xE0, 1, 2, 3, 4] 6 =
          Except.ok ([1, 2, 3, 4, 0, 0], wf) ∧
        ([1, 2, 3, 4, 0, 0] : List Nat).drop wf = List.replicate (6 - wf) 0) ∧
    decompressRefpack [0x10, 0xFB, 0, 0, 0, 0, 0xE0, 1, 2, 3, 4] 6 =
      (decompressRefpackW [0x10, 0xFB, 0, 0, 0, 0, 0xE0, 1, 2, 3, 4] 6).map Prod.fst ∧
    (refpackLoop [] 5 [1, 2] = Except.ok [1, 2] ∧
      refpackLoopW [] 5 [1, 2] = Except.ok ([1, 2], 5)) ∧
    (refpackLoop [0x85, 7] 0 [0, 0] = Except.ok [0, 0] ∧
      refpackLoopW [0x85, 7] 0 [0, 0] = Except.ok ([0, 0], 0)) :=
  ⟨refpack_output_shape.1 [0x10, 0xFB, 0, 0, 0, 0, 0xE0, 1, 2, 3, 4] 6 [1, 2, 3, 4, 0, 0] rfl,
   refpack_output_shape.2.1 [0x10, 0xFB, 0, 0, 0, 0, 0xE0, 1, 2, 3, 4] 6,
   refpack_output_shape.2.2.1 5 [1, 2],
   refpack_output_shape.2.2.2 0x85 [7] 0 [0, 0] (by decide)⟩

/-!
Manifest resource codec (`src/package/resource.rs`): `ManifestResource`,
`ManifestEntry` and the on-disk `ManifestTGI` key layout, as read and
written by the `binrw` annotations on those types.
-/

/-- Continuation byte test for UTF-8 (`0x80..=0xBF`). -/
def isCont (b : Nat) : Bool := 0x80 ≤ b && b ≤ 0xBF

/-- Allowed second byte of a 3-byte UTF-8 sequence headed by `b0`. -/
def utf8Second3 (b0 b1 : Nat) : Bool :=
  if b0 = 0xE0 then 0xA0 ≤ b1 && b1 ≤ 0xBF
  else if b0 = 0xED then 0x80 ≤ b1 && b1 ≤ 0x9F
  else isCont b1

/-- Allowed second byte of a 4-byte UTF-8 sequence headed by `b0`. -/
def utf8Second4 (b0 b1 : Nat) : Bool :=
  if b0 = 0xF0 then 0x90 ≤ b1 && b1 ≤ 0xBF
  else if b0 = 0xF4 then 0x80 ≤ b1 && b1 ≤ 0x8F
  else isCont b1

/-- Classification of one UTF-8 sequence at the front of the input:
given the lead byte `b0` and the bytes after it, returns the number of
trailing bytes that belong to the maximal subpart and whether the
sequence is well-formed. -/
def utf8Step (b0 : Nat) (rest : List Nat) : Nat × Bool :=
  if b0 ≤ 0x7F then (0, true)
  else if 0xC2 ≤ b0 && b0 ≤ 0xDF then
    match rest with
    | b1 :: _ => if isCont b1 then (1, true) else (0, false)
    | [] => (0, false)
  else if 0xE0 ≤ b0 && b0 ≤ 0xEF then
    match rest with
    | b1 :: rest2 =>
      if utf8Second3 b0 b1 then
        match rest2 with
        | b2 :: _ => if isCont b2 then (2, true) else (1, false)
        | [] => (1, false)
      else (0, false)
    | [] => (0, false)
  else if 0xF0 ≤ b0 && b0 ≤ 0xF4 then
    match rest with
    | b1 :: rest2 =>
      if utf8Second4 b0 b1 then
        match rest2 with
        | b2 :: rest3 =>
          if isCont b2 then
            match rest3 with
            | b3 :: _ => if isCont b3 then (3, true) else (2, false)
            | [] => (2, false)
          else (1, false)
        | [] => (1, false)
      else (0, false)
    | [] => (0, false)
  else (0, false)

/-- Byte-level model of `String::from_utf8_lossy` (used by the
`ManifestEntry` name reader): well-formed UTF-8 sequences are passed
through unchanged, and each maximal subpart of an ill-formed sequence is
replaced by the replacement character U+FFFD (bytes `EF BF BD`), per the
documented behaviour of the Rust standard library. -/
def utf8Lossy (l : List Nat) : List Nat :=
  match l with
  | [] => []
  | b0 :: rest =>
    match utf8Step b0 rest with
    | (k, true) => (b0 :: rest.take k) ++ utf8Lossy (rest.drop k)
    | (k, false) => [0xEF, 0xBF, 0xBD] ++ utf8Lossy (rest.drop k)
termination_by l.length
decreasing_by
  all_goals simp only [List.length_cons, List.length_drop]
  all_goals omega

/-- Entry of the manifest: the source archive display name (modelled as
its byte string) and the keys it contributed. -/
structure ManifestEntry where
  name : List Nat
  resources : List TGI
deriving Repr, DecidableEq

structure ManifestResource where
  version : Nat
  padding : Nat
  entries : List ManifestEntry
deriving Repr, DecidableEq

/-- Reads one on-disk manifest key: `ManifestTGI` stores instance (u64),
then kind, then group - not the canonical kind/group/instance order. -/
def decodeManifestTGI (l : List Nat) : Option (TGI × List Nat) :=
  match readLE 8 l with
  | none => none
  | some (inst, r1) =>
    match readLE 4 r1 with
    | none => none
    | some (res_type, r2) =>
      match readLE 4 r2 with
      | none => none
      | some (res_group, r3) =>
        some ({ res_type := res_type, res_group := res_group, inst := inst }, r3)

/-- Writes one on-disk manifest key in `ManifestTGI` field order. -/
def encodeManifestTGI (t : TGI) : List Nat :=
  toLE 8 t.inst ++ toLE 4 t.res_type ++ toLE 4 t.res_group

/-- Reads `n` manifest keys (the `count = resource_count` vector). -/
def decodeManifestTGIs : Nat → List Nat → Option (List TGI × List Nat)
  | 0, l => some ([], l)
  | n + 1, l =>
    match decodeManifestTGI l with
    | none => none
    | some (t, r) =>
      match decodeManifestTGIs n r with
      | none => none
      | some (ts, r2) => some (t :: ts, r2)

/-- Reads one `ManifestEntry`: u32 name length, that many name bytes
passed through `from_utf8_lossy`, u32 resource count, then the keys. -/
def decodeManifestEntry (l : List Nat) : Option (ManifestEntry × List Nat) :=
  match readLE 4 l with
  | none => none
  | some (name_len, r1) =>
    match readList name_len r1 with
    | none => none
    | some (nb, r2) =>
      match readLE 4 r2 with
      | none => none
      | some (resource_count, r3) =>
        match decodeManifestTGIs resource_count r3 with
        | none => none
        | some (ts, r4) => some ({ name := utf8Lossy nb, resources := ts }, r4)

/-- Writes one `ManifestEntry` (name length computed from the name, key
count computed from the key list, as the `bw(calc = ...)` fields do). -/
def encodeManifestEntry (e : ManifestEntry) : List Nat :=
  toLE 4 e.name.length ++ e.name ++ toLE 4 e.resources.length ++
    (e.resources.map encodeManifestTGI).flatten

def decodeManifestEntries : Nat → List Nat → Option (List ManifestEntry × List Nat)
  | 0, l => some ([], l)
  | n + 1, l =>
    match decodeManifestEntry l with
    | none => none
    | some (e, r) =>
      match decodeManifestEntries n r with
      | none => none
      | some (es, r2) => some (e :: es, r2)

/-- Mirrors `ManifestResource::from_bytes`: u32 version, u64 padding,
u32 entry count, then the entries; trailing bytes after the record are
returned unconsumed (a `binrw` cursor read does not require consuming
the whole input). -/
def manifestFromBytes (l : List Nat) : Option (ManifestResource × List Nat) :=
  match readLE 4 l with
  | none => none
  | some (version, r1) =>
    match readLE 8 r1 with
    | none => none
    | some (padding, r2) =>
      match readLE 4 r2 with
      | none => none
      | some (entry_count, r3) =>
        match decodeManifestEntries entry_count r3 with
        | none => none
        | some (es, r4) => some ({ version := version, padding := padding, entries := es }, r4)

/-- Mirrors `ManifestResource::to_bytes`. -/
def manifestToBytes (m : ManifestResource) : List Nat :=
  toLE 4 m.version ++ toLE 8 m.padding ++ toLE 4 m.entries.length ++
    (m.entries.map encodeManifestEntry).flatten

/-- Variant of `decodeManifestEntry` that additionally demands the name
bytes be valid UTF-8 (i.e. fixed by `from_utf8_lossy`); used to state
the round-trip side condition of the manifest codec. -/
def decodeManifestEntryStrict (l : List Nat) : Option (ManifestEntry × List Nat) :=
  match readLE 4 l with
  | none => none
  | some (name_len, r1) =>
    match readList name_len r1 with
    | none => none
    | some (nb, r2) =>
      if utf8Lossy nb ≠ nb then none
      else
        match readLE 4 r2 with
        | none => none
        | some (resource_count, r3) =>
          match decodeManifestTGIs resource_count r3 with
          | none => none
          | some (ts, r4) => some ({ name := nb, resources := ts }, r4)

def decodeManifestEntriesStrict : Nat → List Nat → Option (List ManifestEntry × List Nat)
  | 0, l => some ([], l)
  | n + 1, l =>
    match decodeManifestEntryStrict l with
    | none => none
    | some (e, r) =>
      match decodeManifestEntriesStrict n r with
      | none => none
      | some (es, r2) => some (e :: es, r2)

/-- Manifest decoding restricted to valid-UTF-8 entry names. -/
def manifestFromBytesStrict (l : List Nat) : Option (ManifestResource × List Nat) :=
  match readLE 4 l with
  | none => none
  | some (version, r1) =>
    match readLE 8 r1 with
    | none => none
    | some (padding, r2) =>
      match readLE 4 r2 with
      | none => none
      | some (entry_count, r3) =>
        match decodeManifestEntriesStrict entry_count r3 with
        | none => none
        | some (es, r4) => some ({ version := version, padding := padding, entries := es }, r4)

theorem bytes_suffix {a b l : List Nat} (he : a ++ b = l) (hB : Bytes l) : Bytes b := by
  intro x hx
  exact hB x (he ▸ List.mem_append_right a hx)

theorem readList_some {k : Nat} {l nb r : List Nat} (h : readList k l = some (nb, r)) :
    nb = l.take k ∧ r = l.drop k ∧ k ≤ l.length ∧ nb.length = k ∧ nb ++ r = l := by
  unfold readList at h
  split at h
  · rename_i hk
    simp at h
    obtain ⟨h1, h2⟩ := h
    refine ⟨h1.symm, h2.symm, hk, ?_, ?_⟩
    · rw [← h1]; simp [List.length_take]; omega
    · rw [← h1, ← h2]; exact List.take_append_drop k l
  · simp at h

theorem readLE_toLE (k v : Nat) (r : List Nat) (hv : v < 256 ^ k) :
    readLE k (toLE k v ++ r) = some (v, r) := by
  unfold readLE
  have hlen : (toLE k v).length = k := toLE_length k v
  have ht := List.take_left (toLE k v) r
  have hd := List.drop_left (toLE k v) r
  rw [hlen] at ht hd
  rw [if_pos (by rw [List.length_append, hlen]; omega), ht, hd, leVal_toLE hv]

theorem decodeManifestTGI_roundtrip {l : List Nat} {t : TGI} {r : List Nat} (hB : Bytes l)
    (h : decodeManifestTGI l = some (t, r)) : encodeManifestTGI t ++ r = l := by
  unfold decodeManifestTGI at h
  rcases h8 : readLE 8 l with _ | ⟨inst, r1⟩ <;> rw [h8] at h
  · exact absurd h (by simp)
  · simp only [] at h
    rcases h4a : readLE 4 r1 with _ | ⟨rt, r2⟩ <;> rw [h4a] at h
    · exact absurd h (by simp)
    · simp only [] at h
      rcases h4b : readLE 4 r2 with _ | ⟨rg, r3⟩ <;> rw [h4b] at h
      · exact absurd h (by simp)
      · simp only [Option.some.injEq, Prod.mk.injEq] at h
        obtain ⟨ht, hr⟩ := h
        obtain ⟨e8, hv8⟩ := readLE_roundtrip hB h8
        have hB1 : Bytes r1 := bytes_suffix e8 hB
        obtain ⟨e4a, hv4a⟩ := readLE_roundtrip hB1 h4a
        have hB2 : Bytes r2 := bytes_suffix e4a hB1
        obtain ⟨e4b, hv4b⟩ := readLE_roundtrip hB2 h4b
        subst ht hr
        unfold encodeManifestTGI
        simp only []
        rw [List.append_assoc, List.append_assoc, e4b, e4a, e8]

theorem decodeManifestTGIs_roundtrip :
    ∀ (n : Nat) (l : List Nat) (ts : List TGI) (r : List Nat), Bytes l →
      decodeManifestTGIs n l = some (ts, r) →
      (ts.map encodeManifestTGI).flatten ++ r = l ∧ ts.length = n := by
  intro n
  induction n with
  | zero =>
    intro l ts r hB h
    simp [decodeManifestTGIs] at h
    obtain ⟨h1, h2⟩ := h
    subst h1 h2
    simp
  | succ n ih =>
    intro l ts r hB h
    unfold decodeManifestTGIs at h
    rcases h1 : decodeManifestTGI l with _ | ⟨t, r1⟩ <;> rw [h1] at h
    · exact absurd h (by simp)
    · simp only [] at h
      rcases h2 : decodeManifestTGIs n r1 with _ | ⟨ts2, r2⟩ <;> rw [h2] at h
      · exact absurd h (by simp)
      · simp only [Option.some.injEq, Prod.mk.injEq] at h
        obtain ⟨hts, hr⟩ := h
        have e1 := decodeManifestTGI_roundtrip hB h1
        have hB1 : Bytes r1 := bytes_suffix e1 hB
        obtain ⟨e2, hlen⟩ := ih r1 ts2 r2 hB1 h2
        subst hts hr
        constructor
        · simp only [List.map_cons, List.flatten_cons]
          rw [List.append_assoc, e2, e1]
        · simp [hlen]

theorem decodeManifestEntryStrict_roundtrip {l : List Nat} {e : ManifestEntry} {r : List Nat}
    (hB : Bytes l) (h : decodeManifestEntryStrict l = some (e, r)) :
    encodeManifestEntry e ++ r = l ∧ decodeManifestEntry l = some (e, r) := by
  unfold decodeManifestEntryStrict at h
  rcases h1 : readLE 4 l with _ | ⟨name_len, r1⟩ <;> rw [h1] at h
  · exact absurd h (by simp)
  · simp only [] at h
    rcases h2 : readList name_len r1 with _ | ⟨nb, r2⟩ <;> rw [h2] at h
    · exact absurd h (by simp)
    · simp only [] at h
      split at h
      · exact absurd h (by simp)
      · rename_i hfix
        push_neg at hfix
        rcases h3 : readLE 4 r2 with _ | ⟨rc, r3⟩ <;> rw [h3] at h
        · exact absurd h (by simp)
        · simp only [] at h
          rcases h4 : decodeManifestTGIs rc r3 with _ | ⟨ts, r4⟩ <;> rw [h4] at h
          · exact absurd h (by simp)
          · simp only [Option.some.injEq, Prod.mk.injEq] at h
            obtain ⟨he, hr⟩ := h
            obtain ⟨e1, hv1⟩ := readLE_roundtrip hB h1
            have hB1 : Bytes r1 := bytes_suffix e1 hB
            obtain ⟨-, -, -, hnblen, hsplit⟩ := readList_some h2
            have hB2 : Bytes r2 := bytes_suffix hsplit hB1
            obtain ⟨e3, hv3⟩ := readLE_roundtrip hB2 h3
            have hB3 : Bytes r3 := bytes_suffix e3 hB2
            obtain ⟨e4, hts⟩ := decodeManifestTGIs_roundtrip rc r3 ts r4 hB3 h4
            subst he hr
            constructor
            · unfold encodeManifestEntry
              simp only [List.append_assoc]
              rw [hnblen, hts, e4, e3, hsplit, e1]
            · unfold decodeManifestEntry
              rw [h1]
              simp only []
              rw [h2]
              simp only []
              rw [h3]
              simp only []
              rw [h4, hfix]

theorem decodeManifestEntriesStrict_roundtrip :
    ∀ (n : Nat) (l : List Nat) (es : List ManifestEntry) (r : List Nat), Bytes l →
      decodeManifestEntriesStrict n l = some (es, r) →
      (es.map encodeManifestEntry).flatten ++ r = l ∧ es.length = n ∧
      decodeManifestEntries n l = some (es, r) := by
  intro n
  induction n with
  | zero =>
    intro l es r hB h
    simp [decodeManifestEntriesStrict] at h
    obtain ⟨h1, h2⟩ := h
    subst h1 h2
    simp [decodeManifestEntries]
  | succ n ih =>
    intro l es r hB h
    unfold decodeManifestEntriesStrict at h
    rcases h1 : decodeManifestEntryStrict l with _ | ⟨e, r1⟩ <;> rw [h1] at h
    · exact absurd h (by simp)
    · simp only [] at h
      rcases h2 : decodeManifestEntriesStrict n r1 with _ | ⟨es2, r2⟩ <;> rw [h2] at h
      · exact absurd h (by simp)
      · simp only [Option.some.injEq, Prod.mk.injEq] at h
        obtain ⟨hes, hr⟩ := h
        obtain ⟨e1, hd1⟩ := decodeManifestEntryStrict_roundtrip hB h1
        have hB1 : Bytes r1 := bytes_suffix e1 hB
        obtain ⟨e2, hlen, hd2⟩ := ih r1 es2 r2 hB1 h2
        subst hes hr
        refine ⟨?_, by simp [hlen], ?_⟩
        · simp only [List.map_cons, List.flatten_cons]
          rw [List.append_assoc, e2, e1]
        · unfold decodeManifestEntries
          rw [hd1]
          simp only []
          rw [hd2]

/-- C2 (amended): decoding a byte string into a `ManifestResource` and
re-encoding it reproduces the original byte string exactly whenever the
decoder consumes the whole input and every entry's name bytes are valid
UTF-8 (`manifestFromBytesStrict` packages these two side conditions);
this holds for any number of entries and any per-entry key counts. The
unamended claim is refuted by `manifest_roundtrip_counterexample`:
trailing bytes are accepted by the cursor-based decode but not
re-encoded (and invalid-UTF-8 names are rewritten by
`from_utf8_lossy`). -/
theorem manifest_roundtrip (l : List Nat) (m : ManifestResource)
    (hB : Bytes l) (h : manifestFromBytesStrict l = some (m, [])) :
    manifestToBytes m = l ∧ manifestFromBytes l = some (m, []) := by
  unfold manifestFromBytesStrict at h
  rcases h1 : readLE 4 l with _ | ⟨version, r1⟩ <;> rw [h1] at h
  · exact absurd h (by simp)
  · simp only [] at h
    rcases h2 : readLE 8 r1 with _ | ⟨padding, r2⟩ <;> rw [h2] at h
    · exact absurd h (by simp)
    · simp only [] at h
      rcases h3 : readLE 4 r2 with _ | ⟨entry_count, r3⟩ <;> rw [h3] at h
      · exact absurd h (by simp)
      · simp only [] at h
        rcases h4 : decodeManifestEntriesStrict entry_count r3 with _ | ⟨es, r4⟩ <;>
          rw [h4] at h
        · exact absurd h (by simp)
        · simp only [Option.some.injEq, Prod.mk.injEq] at h
          obtain ⟨hm, hr⟩ := h
          obtain ⟨e1, hv1⟩ := readLE_roundtrip hB h1
          have hB1 : Bytes r1 := bytes_suffix e1 hB
          obtain ⟨e2, hv2⟩ := readLE_roundtrip hB1 h2
          have hB2 : Bytes r2 := bytes_suffix e2 hB1
          obtain ⟨e3, hv3⟩ := readLE_roundtrip hB2 h3
          have hB3 : Bytes r3 := bytes_suffix e3 hB2
          obtain ⟨e4, hlen, hd4⟩ :=
            decodeManifestEntriesStrict_roundtrip entry_count r3 es r4 hB3 h4
          subst hm
          subst hr
          constructor
          · unfold manifestToBytes
            simp only [List.append_assoc]
            rw [hlen]
            rw [List.append_nil] at e4
            rw [e4, e3, e2, e1]
          · unfold manifestFromBytes
            rw [h1]
            simp only []
            rw [h2]
            simp only []
            rw [h3]
            simp only []
            rw [hd4]

/-- C2 counterexample: a 17-byte input (an empty manifest record plus
one trailing byte) decodes successfully - the cursor-based `binrw` read
does not require consuming the whole input - but re-encoding yields only
the 16-byte record, not the original byte string. -/
theorem manifest_roundtrip_counterexample :
    manifestFromBytes (List.replicate 16 0 ++ [7]) =
      some ({ version := 0, padding := 0, entries := [] }, [7]) ∧
    manifestToBytes { version := 0, padding := 0, entries := [] } ≠
      List.replicate 16 0 ++ [7] := by
  constructor
  · rfl
  · decide

/-- Manifest bytes used for the C2 witness: version 1, one entry named
"ab" contributing one resource key. -/
def c2Bytes : List Nat :=
  toLE 4 1 ++ toLE 8 0 ++ toLE 4 1 ++ toLE 4 2 ++ [97, 98] ++ toLE 4 1 ++
  toLE 8 3 ++ toLE 4 1 ++ toLE 4 2

def c2Manifest : ManifestResource :=
  { version := 1, padding := 0,
    entries := [{ name := [97, 98],
                  resources := [{ res_type := 1, res_group := 2, inst := 3 }] }] }

unseal utf8Lossy in
/-- Witness for C2 at a concrete one-entry manifest. -/
theorem manifest_roundtrip_witness :
    manifestToBytes c2Manifest = c2Bytes ∧
    manifestFromBytes c2Bytes = some (c2Manifest, []) :=
  manifest_roundtrip c2Bytes c2Manifest (by unfold Bytes; decide) (by decide)

/-- C6: the manifest codec serializes each resource key in instance,
kind, group byte order (`ManifestTGI` field order), which differs from
the canonical kind/group/instance order used elsewhere, and the key
encoder is the exact inverse of the key decoder for this layout, in both
directions. -/
theorem manifest_tgi_layout :
    (∀ t : TGI, encodeManifestTGI t =
      toLE 8 t.inst ++ toLE 4 t.res_type ++ toLE 4 t.res_group) ∧
    (encodeManifestTGI { res_type := 1, res_group := 2, inst := 3 } ≠
      toLE 4 1 ++ toLE 4 2 ++ toLE 8 3) ∧
    (∀ (l : List Nat) (t : TGI) (r : List Nat), Bytes l →
      decodeManifestTGI l = some (t, r) → encodeManifestTGI t ++ r = l) ∧
    (∀ (t : TGI) (r : List Nat), t.inst < 2 ^ 64 → t.res_type < 2 ^ 32 →
      t.res_group < 2 ^ 32 →
      decodeManifestTGI (encodeManifestTGI t ++ r) = some (t, r)) := by
  refine ⟨fun t => rfl, by decide, fun l t r hB h => decodeManifestTGI_roundtrip hB h, ?_⟩
  intro t r hi ht hg
  unfold decodeManifestTGI encodeManifestTGI
  rw [List.append_assoc, List.append_assoc]
  rw [readLE_toLE 8 t.inst _ (by norm_num at hi ⊢; omega)]
  simp only []
  rw [readLE_toLE 4 t.res_type _ (by norm_num at ht ⊢; omega)]
  simp only []
  rw [readLE_toLE 4 t.res_group _ (by norm_num at hg ⊢; omega)]

/-- Witness for C6: layout, inverse, and decode-of-encode at concrete
keys and bytes. -/
theorem manifest_tgi_layout_witness :
    (encodeManifestTGI { res_type := 4, res_group := 5, inst := 6 } =
      toLE 8 6 ++ toLE 4 4 ++ toLE 4 5) ∧
    (encodeManifestTGI { res_type := 7, res_group := 8, inst := 9 } ++ [1] =
      toLE 8 9 ++ toLE 4 7 ++ toLE 4 8 ++ [1]) ∧
    decodeManifestTGI (encodeManifestTGI { res_type := 7, res_group := 8, inst := 9 } ++ [1]) =
      some ({ res_type := 7, res_group := 8, inst := 9 }, [1]) :=
  ⟨manifest_tgi_layout.1 { res_type := 4, res_group := 5, inst := 6 },
   manifest_tgi_layout.2.2.1 (toLE 8 9 ++ toLE 4 7 ++ toLE 4 8 ++ [1])
     { res_type := 7, res_group := 8, inst := 9 } [1] (by unfold Bytes; decide) (by decide),
   manifest_tgi_layout.2.2.2 { res_type := 7, res_group := 8, inst := 9 } [1]
     (by norm_num) (by norm_num) (by norm_num)⟩

/-!
Archive writer (`Package::write_merged` in `src/package/mod.rs`): the
sort order of the output resources and the emitted index layout.
-/

/-- Is this key the manifest resource key written by the merge engine
(`res_type == 0x7FB6AD8A`)? -/
def isManifestType (t : TGI) : Bool := t.res_type == 0x7FB6AD8A

/-- Lexicographic order on `(res_type, res_group, instance)`, as the
tuple comparison in `write_merged`'s sort closure; `keyLe a b` holds iff
that comparison does not return `Greater`. -/
def keyLe (a b : TGI) : Bool :=
  decide (a.res_type < b.res_type ∨ (a.res_type = b.res_type ∧
    (a.res_group < b.res_group ∨ (a.res_group = b.res_group ∧ a.inst ≤ b.inst))))

/-- The sort closure of `write_merged`: manifests sort before
non-manifests, all other pairs by the key tuple. `manifestFirstLe a b`
holds iff the closure does not return `Greater` on `(a, b)`. -/
def manifestFirstLe (a b : TGI) : Bool :=
  if isManifestType a && !isManifestType b then true
  else if !isManifestType a && isManifestType b then false
  else keyLe a b

/-- Mirrors `sorted_keys.sort_by(...)`: a stable sort of the keys by the
`write_merged` closure. -/
def sortKeys (l : List TGI) : List TGI := l.mergeSort manifestFirstLe

/-- One 32-byte index record as emitted by `write_merged`: kind, group,
instance high word, instance low word, offset, stored size with the high
bit set when compressed, memory size, compression tag normalised to
`0x5A42`/`0`, committed. -/
def writeIndexEntryBytes (e : IndexEntry) : List Nat :=
  toLE 4 e.tgi.res_type ++ toLE 4 e.tgi.res_group ++ toLE 4 (e.tgi.inst >>> 32) ++
  toLE 4 e.tgi.inst ++ toLE 4 e.offset ++
  toLE 4 (if e.compression ≠ 0 then e.filesize ||| 0x80000000 else e.filesize) ++
  toLE 4 e.memsize ++ toLE 2 (if e.compression ≠ 0 then 0x5A42 else 0x0000) ++
  toLE 2 e.committed

/-- The index block as emitted by `write_merged`: a 4-byte `index_type`
equal to 0, then one record per entry. -/
def writeIndexBytes (entries : List IndexEntry) : List Nat :=
  toLE 4 0 ++ (entries.map writeIndexEntryBytes).flatten

theorem keyLe_trans (a b c : TGI) (h1 : keyLe a b = true) (h2 : keyLe b c = true) :
    keyLe a c = true := by
  unfold keyLe at h1 h2 ⊢
  simp only [decide_eq_true_eq] at h1 h2 ⊢
  omega

theorem keyLe_total (a b : TGI) : (keyLe a b || keyLe b a) = true := by
  unfold keyLe
  simp only [Bool.or_eq_true, decide_eq_true_eq]
  omega

theorem manifestFirstLe_trans (a b c : TGI) (h1 : manifestFirstLe a b = true)
    (h2 : manifestFirstLe b c = true) : manifestFirstLe a c = true := by
  unfold manifestFirstLe at h1 h2 ⊢
  rcases hA : isManifestType a <;> rcases hB : isManifestType b <;>
    rcases hC : isManifestType c <;> simp [hA, hB, hC] at h1 h2 ⊢ <;>
    exact keyLe_trans a b c h1 h2

theorem manifestFirstLe_total (a b : TGI) :
    (manifestFirstLe a b || manifestFirstLe b a) = true := by
  unfold manifestFirstLe
  rcases hA : isManifestType a <;> rcases hB : isManifestType b <;> simp [hA, hB] <;>
    have := keyLe_total a b <;> have := keyLe_total b a <;> simp_all

theorem manifestFirstLe_implies {a b : TGI} (h : manifestFirstLe a b = true) :
    (isManifestType b = true → isManifestType a = true) ∧
    (isManifestType a = isManifestType b → keyLe a b = true) := by
  unfold manifestFirstLe at h
  rcases hA : isManifestType a <;> rcases hB : isManifestType b <;>
    simp [hA, hB] at h ⊢ <;> try exact h

theorem flatten_const_length (entries : List IndexEntry) :
    ((entries.map writeIndexEntryBytes).flatten).length = 32 * entries.length := by
  induction entries with
  | nil => simp
  | cons e es ih =>
    simp only [List.map_cons, List.flatten_cons, List.length_append, ih, List.length_cons]
    have he : (writeIndexEntryBytes e).length = 32 := by
      simp [writeIndexEntryBytes, toLE_length]
    rw [he]
    ring

/-- C7: the writer orders resources with the manifest key (if present)
first and all others in ascending (kind, group, instance) order - the
sorted key list is a permutation of the input and every pair in order
satisfies the manifest-first / key-ascending relation - and the index is
always emitted in the fully explicit layout: a 4-byte `index_type` equal
to 0 followed by one 32-byte record per entry carrying all fields. -/
theorem write_order_and_index_layout :
    (∀ l : List TGI, (sortKeys l).Perm l) ∧
    (∀ l : List TGI, (sortKeys l).Pairwise (fun a b =>
      (isManifestType b = true → isManifestType a = true) ∧
      (isManifestType a = isManifestType b → keyLe a b = true))) ∧
    (∀ entries : List IndexEntry,
      writeIndexBytes entries = [0, 0, 0, 0] ++ (entries.map writeIndexEntryBytes).flatten ∧
      (writeIndexBytes entries).length = 4 + 32 * entries.length) ∧
    (∀ e : IndexEntry, (writeIndexEntryBytes e).length = 32) := by
  refine ⟨?_, ?_, ?_, ?_⟩
  · intro l
    exact List.mergeSort_perm l manifestFirstLe
  · intro l
    have hs := @List.sorted_mergeSort TGI manifestFirstLe
      (fun a b c h1 h2 => manifestFirstLe_trans a b c h1 h2)
      (fun a b => manifestFirstLe_total a b) l
    exact hs.imp (fun h => manifestFirstLe_implies h)
  · intro entries
    constructor
    · rfl
    · simp only [writeIndexBytes, List.length_append, toLE_length, flatten_const_length]
  · intro e
    simp [writeIndexEntryBytes, toLE_length]

/-- Witness for C7 at a concrete key set (manifest key last in the
input) and a concrete compressed entry. -/
theorem write_order_and_index_layout_witness :
    (sortKeys [{ res_type := 9, res_group := 0, inst := 0 },
               { res_type := 0x7FB6AD8A, res_group := 0, inst := 0 }]).Perm
      [{ res_type := 9, res_group := 0, inst := 0 },
       { res_type := 0x7FB6AD8A, res_group := 0, inst := 0 }] ∧
    (writeIndexEntryBytes
      { tgi := { res_type := 1, res_group := 2, inst := 3 }, offset := 4,
        filesize := 5, memsize := 6, compression := 0x5A42, committed := 1 }).length = 32 :=
  ⟨write_order_and_index_layout.1 _, write_order_and_index_layout.2.2.2 _⟩

/-- Sniff of `write_merged`'s parallel-compression closure:
`raw_data.len() >= 2 && (raw_data[0] == 0x78 || raw_data[1] == 0xFB)`. -/
def isAlreadyCompressed (raw : List Nat) : Bool :=
  match raw with
  | a :: b :: _ => a == 0x78 || b == 0xFB
  | _ => false

/-- Per-resource encode step of `write_merged` (the body of the
`par_iter().map(...)` closure), parametrised by the external deflate
encoder (`flate2` `ZlibEncoder`, `write_all` + `finish`): produces the
stored bytes and the compression tag, passing `memsize` and `committed`
through unchanged. An encoder error falls back to the raw bytes with tag
0, as in the source. -/
def processResource (deflate : List Nat → Except String (List Nat)) (compress : Bool)
    (raw : List Nat) (memsize compression_flag committed : Nat) :
    List Nat × Nat × Nat × Nat :=
  if compress || compression_flag != 0 then
    if isAlreadyCompressed raw then (raw, memsize, 0x5A42, committed)
    else
      match deflate raw with
      | Except.error _ => (raw, memsize, 0, committed)
      | Except.ok compressed =>
        if compressed.length < raw.length then (compressed, memsize, 0x5A42, committed)
        else (raw, memsize, 0x5A42, committed)
  else (raw, memsize, 0x0000, committed)

/-- C8: under forced compression, a payload sniffed as already
compressed (two or more bytes with first byte 0x78 or second byte 0xFB)
is stored unchanged and tagged 0x5A42 whatever the encoder would do;
otherwise the encoder runs, and when its output is not smaller than the
input the original bytes are stored but still tagged 0x5A42 (when it is
smaller, the encoded bytes are stored, tagged 0x5A42). -/
theorem write_compression_policy :
    ∀ (deflate : List Nat → Except String (List Nat)) (raw : List Nat)
      (memsize compression_flag committed : Nat),
      (isAlreadyCompressed raw = true →
        processResource deflate true raw memsize compression_flag committed =
          (raw, memsize, 0x5A42, committed)) ∧
      (isAlreadyCompressed raw = false → ∀ c, deflate raw = Except.ok c →
        ¬ c.length < raw.length →
        processResource deflate true raw memsize compression_flag committed =
          (raw, memsize, 0x5A42, committed)) ∧
      (isAlreadyCompressed raw = false → ∀ c, deflate raw = Except.ok c →
        c.length < raw.length →
        processResource deflate true raw memsize compression_flag committed =
          (c, memsize, 0x5A42, committed)) := by
  intro deflate raw memsize compression_flag committed
  refine ⟨?_, ?_, ?_⟩
  · intro hs
    simp [processResource, hs]
  · intro hs c hc hlt
    simp [processResource, hs, hc, hlt]
  · intro hs c hc hlt
    simp [processResource, hs, hc, hlt]

/-- Witness for C8: a 0x78-headed payload is passed through for any
encoder; a 2-byte payload whose encoding is larger is stored raw but
tagged; a payload with a smaller encoding is stored encoded. -/
theorem write_compression_policy_witness :
    processResource (fun l => Except.ok (0 :: l)) true [0x78, 1] 2 0 1 =
      ([0x78, 1], 2, 0x5A42, 1) ∧
    processResource (fun l => Except.ok (0 :: l)) true [1, 2] 2 0 1 =
      ([1, 2], 2, 0x5A42, 1) ∧
    processResource (fun _ => Except.ok []) true [1, 2] 2 0 1 =
      ([], 2, 0x5A42, 1) :=
  ⟨(write_compression_policy (fun l => Except.ok (0 :: l)) [0x78, 1] 2 0 1).1 (by decide),
   (write_compression_policy (fun l => Except.ok (0 :: l)) [1, 2] 2 0 1).2.1 (by decide)
     [0, 1, 2] rfl (by decide),
   (write_compression_policy (fun _ => Except.ok []) [1, 2] 2 0 1).2.2 (by decide)
     [] rfl (by decide)⟩

/-!
Merge driver (`run_merge` in `src/main.rs`), from the point where the
per-source parallel results have been collected: aggregation into the
content-addressed resource set, manifest construction, and the
empty-set early return.
-/

/-- Per-resource record carried through the merge:
`(payload bytes, memory size, compression tag, committed)`. -/
abbrev Payload := List Nat × Nat × Nat × Nat

/-- `HashMap::insert` on an association list: replaces the value of an
existing key, appends a new key. -/
def insertKV (m : List (TGI × Payload)) (k : TGI) (v : Payload) : List (TGI × Payload) :=
  match m with
  | [] => [(k, v)]
  | (k2, v2) :: rest => if k2 = k then (k, v) :: rest else (k2, v2) :: insertKV rest k v

/-- Aggregation loop of `run_merge` over the per-source results: each
successful source appends one manifest entry (its name and contributed
keys) and inserts its resources into `merged_data`; failed sources are
skipped. -/
def aggregateResults
    (results : List (Except String (List Nat × List TGI × List (TGI × Payload)))) :
    List (TGI × Payload) × List ManifestEntry :=
  results.foldl
    (fun acc res =>
      match res with
      | Except.error _ => acc
      | Except.ok (filename, pkg_resources, pkg_data) =>
        (pkg_data.foldl (fun m tv => insertKV m tv.1 tv.2) acc.1,
         acc.2 ++ [{ name := filename, resources := pkg_resources }]))
    ([], [])

/-- Outcome of `run_merge` after aggregation: `Except.ok none` models a
successful return with no output file (the `merged_data.is_empty()`
early return); otherwise the manifest resource (version 1, forced
compression tag 0x5A42) is inserted and the resulting resource set is
handed to `Package::write_merged`. -/
def runMergeOutcome
    (results : List (Except String (List Nat × List TGI × List (TGI × Payload)))) :
    Except String (Option (List (TGI × Payload))) :=
  let agg := aggregateResults results
  if agg.1.isEmpty then Except.ok none
  else
    let manifest : ManifestResource :=
      { version := 1, padding := 0, entries := agg.2 }
    let manifest_data := manifestToBytes manifest
    let manifest_tgi : TGI := { res_type := 0x7FB6AD8A, res_group := 0, inst := 0 }
    Except.ok (some (insertKV agg.1 manifest_tgi
      (manifest_data, manifest_data.length, 0x5A42, 1)))

/-- C9: when, after skipping failed sources, the aggregated resource set
is empty, the merge returns success and produces no output file. -/
theorem merge_empty_success
    (results : List (Except String (List Nat × List TGI × List (TGI × Payload))))
    (h : (aggregateResults results).1 = []) :
    runMergeOutcome results = Except.ok none := by
  unfold runMergeOutcome
  simp [h]

/-- Witness for C9: a run in which the only source failed to open. -/
theorem merge_empty_success_witness :
    runMergeOutcome [Except.error "Failed to read package header"] = Except.ok none :=
  merge_empty_success [Except.error "Failed to read package header"] rfl
